import Mathlib

/-!
# Verification of the Lumen small-integer numeric core

Shallow embedding of `liblumen_alloc/src/erts/term/integer/small.rs` (the
`SmallInteger` type, its tagged-word encoding, and the arithmetic / bitwise /
comparison operator protocol returning the two-variant `Integer`).

Machine model: the target is 64-bit, so `isize`/`usize` are 64 bits wide.
Machine integers are embedded as `Int`/`Nat` with explicit reduction modulo
`2 ^ 64` where native overflow or bit-level behaviour matters.
-/

set_option maxRecDepth 100000

namespace Lumen

/-! ## Constants from `SmallInteger` (small.rs lines 18-26) -/

/-- Four bits for the immediate header, one for the sign bit. -/
def RESERVED_BITS : Nat := 5

/-- Number of bits available for the integer value: `64 - RESERVED_BITS`. -/
def NUM_BITS : Nat := 64 - RESERVED_BITS

/-- The sign flag, `1usize << NUM_BITS`. -/
def FLAG_SIGN : Nat := 2 ^ NUM_BITS

/-- The constant `(usize::max_value() >> RESERVED_BITS) as isize = 2 ^ 59 - 1`. -/
def MAX_VALUE : Int := 2 ^ NUM_BITS - 1

/-- The constant `!MAX_VALUE as isize = -(2 ^ 59)`. -/
def MIN_VALUE : Int := -(2 ^ NUM_BITS)

/-- The `SmallInteger` range invariant (small.rs `new`, line 32). -/
def inRange (x : Int) : Prop := MIN_VALUE ≤ x ∧ x ≤ MAX_VALUE

instance (x : Int) : Decidable (inRange x) :=
  inferInstanceAs (Decidable (MIN_VALUE ≤ x ∧ x ≤ MAX_VALUE))

/-! ## The 64-bit machine-integer model -/

def I64_MIN : Int := -(2 ^ 63)

def I64_MAX : Int := 2 ^ 63 - 1

/-- Does an exact result fit the native signed 64-bit width? -/
def inI64 (x : Int) : Bool := decide (I64_MIN ≤ x ∧ x ≤ I64_MAX)

/-- The twos-complement bit pattern (as a natural number `< 2 ^ 64`) of an
`isize` value. -/
def toBits (x : Int) : Nat := (x % (2 ^ 64 : Int)).toNat

/-- Reinterpret a 64-bit pattern as a signed value (inverse of `toBits`). -/
def ofBits (n : Nat) : Int := if n < 2 ^ 63 then (n : Int) else (n : Int) - 2 ^ 64

/-- Bitwise combination of the low `k` bits of two naturals, structurally
recursive so that concrete instances reduce in the kernel. -/
def bitStep (f : Bool → Bool → Bool) : Nat → Nat → Nat → Nat
  | 0, _, _ => 0
  | k + 1, a, b =>
    (if f (a % 2 = 1) (b % 2 = 1) then 1 else 0) + 2 * bitStep f k (a / 2) (b / 2)

def bitAnd64 (a b : Nat) : Nat := bitStep and 64 a b

def bitOr64 (a b : Nat) : Nat := bitStep or 64 a b

def bitXor64 (a b : Nat) : Nat := bitStep xor 64 a b

/-- Native `&` on `isize`. -/
def iand (a b : Int) : Int := ofBits (bitAnd64 (toBits a) (toBits b))

/-- Native `|` on `isize`. -/
def ior (a b : Int) : Int := ofBits (bitOr64 (toBits a) (toBits b))

/-- Native `^` on `isize`. -/
def ixor (a b : Int) : Int := ofBits (bitXor64 (toBits a) (toBits b))

/-- Native `!` on `isize` (twos complement, exact for every 64-bit value). -/
def inot (a : Int) : Int := -a - 1

/-- Reduce an exact integer to the signed 64-bit value with the same low 64
bits (the effect of a wrapping native operation). -/
def wrap64 (z : Int) : Int := (z + 2 ^ 63) % 2 ^ 64 - 2 ^ 63

/-! ## Rust checked arithmetic on `isize` -/

def checked_add (a b : Int) : Option Int :=
  if inI64 (a + b) then some (a + b) else none

def checked_sub (a b : Int) : Option Int :=
  if inI64 (a - b) then some (a - b) else none

def checked_mul (a b : Int) : Option Int :=
  if inI64 (a * b) then some (a * b) else none

/-- Rust `isize::checked_div`: `None` on a zero divisor or on `MIN / -1` overflow;
Rust integer division truncates toward zero (`Int.tdiv`). -/
def checked_div (a b : Int) : Option Int :=
  if b = 0 then none
  else if a = I64_MIN ∧ b = -1 then none
  else some (Int.tdiv a b)

/-- Rust `isize::checked_rem`: remainder paired with truncating division. -/
def checked_rem (a b : Int) : Option Int :=
  if b = 0 then none
  else if a = I64_MIN ∧ b = -1 then none
  else some (Int.tmod a b)

def checked_neg (a : Int) : Option Int :=
  if a = I64_MIN then none else some (-a)

/-- Rust `isize::checked_shl`: `None` only when the shift count is `≥ 64`; the
shifted value itself wraps (bits shifted out are discarded). -/
def checked_shl (a : Int) (s : Nat) : Option Int :=
  if s < 64 then some (wrap64 (a * 2 ^ s)) else none

/-- Rust `isize::checked_shr`: `None` only when the shift count is `≥ 64`;
otherwise an arithmetic (sign-propagating) right shift, i.e. floor division. -/
def checked_shr (a : Int) (s : Nat) : Option Int :=
  if s < 64 then some (Int.fdiv a (2 ^ s)) else none

/-! ## The external arbitrary-precision capability (num-bigint `BigInt`)

Exact integer arithmetic; division and remainder abort (`none`) on a zero
divisor, which is how the external crate behaves. -/

def big_div (a b : Int) : Option Int := if b = 0 then none else some (Int.tdiv a b)

def big_rem (a b : Int) : Option Int := if b = 0 then none else some (Int.tmod a b)

def big_shl (a : Int) (s : Nat) : Int := a * 2 ^ s

/-- The `BigInt` right shift is arithmetic: rounds toward negative infinity. -/
def big_shr (a : Int) (s : Nat) : Int := Int.fdiv a (2 ^ s)

/-! ## The `Integer` result type -/

/-- Modelled from the spec: the two-variant result type of every
integer-producing operation, `Small(SmallInteger)` or `Big(BigInteger)`
(`integer/mod.rs` itself is not among the examined sources). `Small` carries
the native value wrapped by the `SmallInteger`, `Big` the arbitrary-precision
value boxed by the `BigInteger`. -/
inductive Integer : Type
  | Small : Int → Integer
  | Big : Int → Integer
deriving DecidableEq

/-- Modelled from the spec: `From<SmallInteger> for Integer` wraps the small
value in the `Small` variant. -/
def integer_of_small (s : Int) : Integer := Integer.Small s

/-- The guard sequence of `smallint_binop_trait_impl` (small.rs lines 195-197):
box values outside the small range, keep the rest immediate. -/
def tierResult (val : Int) : Integer :=
  if val > MAX_VALUE then Integer.Big val
  else if val < MIN_VALUE then Integer.Big val
  else Integer.Small val

/-- The canonicalization map of the spec: `Small` exactly on `[MIN_VALUE, MAX_VALUE]`,
`Big` with the exact value otherwise. Stated from the words of the spec, for
comparison against the implementation. -/
def canonicalInteger (r : Int) : Integer :=
  if MIN_VALUE ≤ r ∧ r ≤ MAX_VALUE then Integer.Small r else Integer.Big r

/-! ## The operator protocol (small.rs lines 182-303) -/

/-- Impl `Add for SmallInteger` (via `smallint_binop_trait_impl`). -/
def small_add (a b : Int) : Integer :=
  match checked_add a b with
  | none => Integer.Big (a + b)
  | some val => tierResult val

/-- Impl `Sub for SmallInteger`. -/
def small_sub (a b : Int) : Integer :=
  match checked_sub a b with
  | none => Integer.Big (a - b)
  | some val => tierResult val

/-- Impl `Mul for SmallInteger`. -/
def small_mul (a b : Int) : Integer :=
  match checked_mul a b with
  | none => Integer.Big (a * b)
  | some val => tierResult val

/-- Impl `Div for SmallInteger`: on a checked failure the operands are widened and
divided as `BigInt`, which aborts on a zero divisor (`none`). -/
def small_div (a b : Int) : Option Integer :=
  match checked_div a b with
  | none => (big_div a b).map Integer.Big
  | some val => some (tierResult val)

/-- Impl `Rem for SmallInteger`. -/
def small_rem (a b : Int) : Option Integer :=
  match checked_rem a b with
  | none => (big_rem a b).map Integer.Big
  | some val => some (tierResult val)

/-- Impl `Neg for SmallInteger` (via `smallint_unaryop_trait_impl`). -/
def small_neg (a : Int) : Integer :=
  match checked_neg a with
  | none => Integer.Big (-a)
  | some val => tierResult val

/-- Function `new_unchecked` (small.rs lines 40-54): the runtime assertion that the
value is in range; an assertion failure aborts (`none`). -/
def new_unchecked (i : Int) : Option Int :=
  if MIN_VALUE ≤ i ∧ i ≤ MAX_VALUE then some i else none

/-- Impl `Not for SmallInteger` (small.rs lines 230-243): complement, mask against
`MAX_VALUE`, range check, then the unchecked constructor. -/
def small_not (a : Int) : Option Integer :=
  let complement := iand (inot a) MAX_VALUE
  if complement > MAX_VALUE ∨ complement < MIN_VALUE then
    some (Integer.Big complement)
  else
    (new_unchecked complement).map Integer.Small

/-- Impl `Shl<usize> for SmallInteger` (small.rs lines 244-264): a shift count not
representable as `u32` goes straight to `BigInt`; otherwise checked native
shift with the three-tier decision. -/
def small_shl (a : Int) (s : Nat) : Integer :=
  if s < 2 ^ 32 then
    match checked_shl a s with
    | none => Integer.Big (big_shl a s)
    | some val => tierResult val
  else Integer.Big (big_shl a s)

/-- Impl `Shr<usize> for SmallInteger` (small.rs lines 266-287). Note line 279 of
the source: the fallback for a failed checked right shift calls `shl` on the
widened operand, shifting LEFT. -/
def small_shr (a : Int) (s : Nat) : Integer :=
  if s < 2 ^ 32 then
    match checked_shr a s with
    | none => Integer.Big (big_shl a s)
    | some val => tierResult val
  else Integer.Big (big_shr a s)

/-- Impl `BitAnd for SmallInteger` (via `smallint_bitop_trait_impl`, lines 289-303):
the native operation fed straight to `new_unchecked`, skipping the tiers. -/
def small_and (a b : Int) : Option Integer :=
  (new_unchecked (iand a b)).map integer_of_small

/-- Impl `BitOr for SmallInteger`. -/
def small_or (a b : Int) : Option Integer :=
  (new_unchecked (ior a b)).map integer_of_small

/-- Impl `BitXor for SmallInteger`. -/
def small_xor (a b : Int) : Option Integer :=
  (new_unchecked (ixor a b)).map integer_of_small

/-! ## The tagged-word encoding (small.rs lines 56-83)

The 4 header tag bits sit above the sign flag (bits 60-63): `as_term` ors the
tag into the word without shifting the 59-bit magnitude, so the tag mask and
the payload (magnitude plus sign flag, bits 0-59) are disjoint. The concrete
tag constant `Term::FLAG_SMALL_INTEGER` lives outside the examined sources, so
the encoding is parameterized by it. -/

/-- Impl `AsTerm for SmallInteger` (small.rs lines 69-83): a non-negative value is
tagged directly with the sign flag cleared; a negative value has its absolute
value tagged with the sign flag set. -/
def as_term (tag : Nat) (v : Int) : Nat :=
  if 0 ≤ v then bitAnd64 (bitOr64 v.toNat tag) (2 ^ 64 - 1 - FLAG_SIGN)
  else bitOr64 (bitOr64 v.natAbs tag) FLAG_SIGN

/-- Strip the 4 header tag bits (bits 60-63) from a tagged word, leaving the
untagged payload the caller hands to `from_untagged_term`. -/
def untag_small (w : Nat) : Nat := w % 2 ^ 60

/-- Function `from_untagged_term` (small.rs lines 59-67): test the sign flag, mask it
off to recover the magnitude, negate if the flag was set. The untagged payload
is below `2 ^ 60`, so the `usize` → `isize` cast of the magnitude is exact. -/
def from_untagged_term (u : Nat) : Int :=
  let unsigned := bitAnd64 u (2 ^ 64 - 1 - FLAG_SIGN)
  if bitAnd64 u FLAG_SIGN = FLAG_SIGN then -(unsigned : Int) else (unsigned : Int)

/-! ## Cross-type comparison (small.rs lines 305-343) -/

/-- Modelled from the spec: `BigInteger` wraps an arbitrary-precision value
supplied by the external bignum capability (its defining module is not among
the examined sources). -/
structure BigInteger where
  value : Int
deriving DecidableEq

/-- Modelled from the spec: the boxed `Float` carries a double-precision
`value`; an IEEE `f64` is abstracted as NaN, an infinity, or a finite number
(every finite double is rational). -/
inductive F64 : Type
  | nan : F64
  | negInf : F64
  | posInf : F64
  | fin : ℚ → F64
deriving DecidableEq

/-- IEEE `f64` comparison (`PartialOrd for f64`): `none` exactly when a NaN is
involved, otherwise the numeric order with the infinities at the ends. -/
def F64.cmp : F64 → F64 → Option Ordering
  | .nan, _ => none
  | _, .nan => none
  | .negInf, .negInf => some .eq
  | .posInf, .posInf => some .eq
  | .negInf, _ => some .lt
  | _, .negInf => some .gt
  | .posInf, _ => some .gt
  | _, .posInf => some .lt
  | .fin q, .fin r => some (compare q r)

/-- IEEE `f64` equality (`PartialEq for f64`): NaN equals nothing. -/
def F64.beq (x y : F64) : Bool :=
  match F64.cmp x y with
  | some Ordering.eq => true
  | _ => false

/-- Round a magnitude to 53 significant bits, ties to even: the rounding the
`isize as f64` cast performs (every `isize` is far below the `f64` overflow
threshold, so the result is always finite). -/
def roundSig53 (n : Nat) : Nat :=
  if n < 2 ^ 53 then n
  else
    let e := n.log2 - 52
    let q := n / 2 ^ e
    let r := n % 2 ^ e
    let h := 2 ^ (e - 1)
    if r < h then q * 2 ^ e
    else if h < r then (q + 1) * 2 ^ e
    else if q % 2 = 0 then q * 2 ^ e
    else (q + 1) * 2 ^ e

/-- The `self.0 as f64` cast: round to the nearest double, ties to even. -/
def isize_as_f64 (x : Int) : F64 :=
  if 0 ≤ x then F64.fin (roundSig53 x.toNat : ℚ)
  else F64.fin (-(roundSig53 x.natAbs : ℚ))

/-- Impl `Into<BigInt> for SmallInteger` (small.rs lines 166-170): lossless
widening of the native value. -/
def small_into_big (s : Int) : Int := s

/-- Impl `PartialEq<Float> for SmallInteger` (small.rs lines 305-310). -/
def small_eq_float (s : Int) (f : F64) : Bool :=
  F64.beq (isize_as_f64 s) f

/-- Impl `PartialOrd<Float> for SmallInteger` (small.rs lines 332-337). -/
def small_cmp_float (s : Int) (f : F64) : Option Ordering :=
  F64.cmp (isize_as_f64 s) f

/-- Impl `PartialEq<BigInteger> for SmallInteger` (small.rs lines 311-316):
`other.value == BigInt::from(self.0 as i64)`. -/
def small_eq_big (s : Int) (g : BigInteger) : Bool :=
  decide (g.value = s)

/-- Impl `PartialOrd<BigInteger> for SmallInteger` (small.rs lines 338-343):
`Some(BigInt::from(self.0 as i64).cmp(&other.value))`. -/
def small_cmp_big (s : Int) (g : BigInteger) : Option Ordering :=
  some (compare s g.value)

/-! ## Basic facts about the constants and the tier decision -/

theorem MAX_VALUE_eq : MAX_VALUE = 2 ^ 59 - 1 := by
  norm_num [MAX_VALUE, NUM_BITS, RESERVED_BITS]

theorem MIN_VALUE_eq : MIN_VALUE = -(2 ^ 59) := by
  norm_num [MIN_VALUE, NUM_BITS, RESERVED_BITS]

/-- The three-tier guard sequence of the binop macro is extensionally the
canonicalization map of the spec. -/
theorem tierResult_eq_canonical (v : Int) : tierResult v = canonicalInteger v := by
  unfold tierResult canonicalInteger
  by_cases h1 : v > MAX_VALUE
  · rw [if_pos h1, if_neg (by omega)]
  · by_cases h2 : v < MIN_VALUE
    · rw [if_neg h1, if_pos h2, if_neg (by omega)]
    · rw [if_neg h1, if_neg h2, if_pos (by omega)]

/-- A native 64-bit overflow of add/sub/mul means the exact result is far
outside the (narrower) small-integer range. -/
theorem canonical_of_notI64 (r : Int) (h : ¬(inI64 r = true)) :
    canonicalInteger r = Integer.Big r := by
  unfold inI64 at h
  rw [canonicalInteger, if_neg]
  simp only [decide_eq_true_eq] at h
  norm_num [I64_MIN, I64_MAX, MIN_VALUE_eq, MAX_VALUE_eq] at h ⊢
  omega

theorem small_add_eq_canonical (a b : Int) : small_add a b = canonicalInteger (a + b) := by
  unfold small_add checked_add
  by_cases h : inI64 (a + b) = true
  · rw [if_pos h]; exact tierResult_eq_canonical _
  · rw [if_neg h, canonical_of_notI64 _ h]

theorem small_sub_eq_canonical (a b : Int) : small_sub a b = canonicalInteger (a - b) := by
  unfold small_sub checked_sub
  by_cases h : inI64 (a - b) = true
  · rw [if_pos h]; exact tierResult_eq_canonical _
  · rw [if_neg h, canonical_of_notI64 _ h]

theorem small_mul_eq_canonical (a b : Int) : small_mul a b = canonicalInteger (a * b) := by
  unfold small_mul checked_mul
  by_cases h : inI64 (a * b) = true
  · rw [if_pos h]; exact tierResult_eq_canonical _
  · rw [if_neg h, canonical_of_notI64 _ h]

/-- An in-range operand is never the native minimum, so the only checked
div/rem failure left is the zero divisor. -/
theorem inRange_ne_i64_min (a : Int) (ha : inRange a) : a ≠ I64_MIN := by
  rcases ha with ⟨h1, _⟩
  rw [MIN_VALUE_eq] at h1
  norm_num [I64_MIN]
  omega

/-- C1: for in-range operands, each of add, sub, mul, div, rem (divisor
nonzero for the last two) returns the canonical `Integer` of the exact
mathematical result: `Small(r)` when `MIN_VALUE ≤ r ≤ MAX_VALUE`, otherwise
`Big` of exactly `r`. Division and remainder truncate toward zero, as the
native and the arbitrary-precision operation both do. -/
theorem smallint_binop_canonical (a b : Int) (ha : inRange a) (_hb : inRange b) :
    small_add a b = canonicalInteger (a + b) ∧
    small_sub a b = canonicalInteger (a - b) ∧
    small_mul a b = canonicalInteger (a * b) ∧
    (b ≠ 0 →
      small_div a b = some (canonicalInteger (Int.tdiv a b)) ∧
      small_rem a b = some (canonicalInteger (Int.tmod a b))) := by
  refine ⟨small_add_eq_canonical a b, small_sub_eq_canonical a b,
    small_mul_eq_canonical a b, fun hb0 => ⟨?_, ?_⟩⟩
  · unfold small_div checked_div
    rw [if_neg hb0, if_neg (fun hc => inRange_ne_i64_min a ha hc.1)]
    exact congrArg some (tierResult_eq_canonical _)
  · unfold small_rem checked_rem
    rw [if_neg hb0, if_neg (fun hc => inRange_ne_i64_min a ha hc.1)]
    exact congrArg some (tierResult_eq_canonical _)

/-- Witness for C1 at `a = MAX_VALUE`, `b = 2`: addition promotes to an exact
`Big`, division stays `Small`. -/
theorem smallint_binop_canonical_witness :
    inRange MAX_VALUE ∧ inRange 2 ∧ (2 : Int) ≠ 0 ∧
    small_add MAX_VALUE 2 = canonicalInteger (MAX_VALUE + 2) ∧
    small_div MAX_VALUE 2 = some (canonicalInteger (Int.tdiv MAX_VALUE 2)) := by
  have h := smallint_binop_canonical MAX_VALUE 2 (by decide) (by decide)
  exact ⟨by decide, by decide, by decide, h.1, (h.2.2.2 (by decide)).1⟩

/-! ## Negation (C10) -/

/-- C10: for an in-range operand, negation returns `Small(-x)` except at
`MIN_VALUE`, whose negation exceeds `MAX_VALUE` by one and is boxed exactly;
the native checked-negation overflow fallback (`x = isize::MIN`) is
unreachable from an in-range operand. -/
theorem small_neg_correct (x : Int) (hx : inRange x) :
    (x ≠ MIN_VALUE → small_neg x = Integer.Small (-x)) ∧
    (x = MIN_VALUE → small_neg x = Integer.Big (MAX_VALUE + 1)) ∧
    checked_neg x ≠ none := by
  have hne : x ≠ I64_MIN := inRange_ne_i64_min x hx
  have hsome : checked_neg x = some (-x) := by unfold checked_neg; rw [if_neg hne]
  have hrun : small_neg x = tierResult (-x) := by unfold small_neg; rw [hsome]
  rcases hx with ⟨h1, h2⟩
  rw [MIN_VALUE_eq] at h1
  rw [MAX_VALUE_eq] at h2
  refine ⟨fun hmin => ?_, fun hmin => ?_, fun hc => by rw [hsome] at hc; cases hc⟩
  · rw [MIN_VALUE_eq] at hmin
    rw [hrun]
    simp only [tierResult, MAX_VALUE_eq, MIN_VALUE_eq]
    rw [if_neg (by omega), if_neg (by omega)]
  · rw [hrun, hmin]
    simp only [tierResult, MAX_VALUE_eq, MIN_VALUE_eq]
    rw [if_pos (by omega)]
    norm_num

/-- Witness for C10 at the two interesting inputs `x = MIN_VALUE` and `x = 7`. -/
theorem small_neg_correct_witness :
    inRange MIN_VALUE ∧ small_neg MIN_VALUE = Integer.Big (MAX_VALUE + 1) ∧
    inRange 7 ∧ small_neg 7 = Integer.Small (-7) := by
  refine ⟨by decide, (small_neg_correct MIN_VALUE (by decide)).2.1 rfl,
    by decide, (small_neg_correct 7 (by decide)).1 (by decide)⟩

/-! ## The shift defects and the zero-divisor abort (C2, C3, C4, C6) -/

/-- C2 (code bug): the demotion-forbidden invariant fails. Shifting the
in-range value `0` right by `64` takes the failed-checked-shift fallback and
returns `Integer::Big(0)`, a `Big` wrapping a value inside
`[MIN_VALUE, MAX_VALUE]` that canonically must be `Small(0)`. -/
theorem small_shr_demotes :
    small_shr 0 64 = Integer.Big 0 ∧ inRange 0 ∧
    small_shr 0 64 ≠ canonicalInteger 0 := by decide

/-- C3 (code bug): when the native checked right shift fails, the fallback
(small.rs line 279) shifts LEFT on the widened operand: `1 >> 64` returns
`Integer::Big(2^64)` although the mathematical right shift is
`1.fdiv (2^64) = 0`. -/
theorem small_shr_fallback_shifts_left :
    small_shr 1 64 = Integer.Big (2 ^ 64) ∧
    Int.fdiv 1 (2 ^ 64) = 0 ∧
    small_shr 1 64 ≠ canonicalInteger (Int.fdiv 1 (2 ^ 64)) := by decide

/-- C4 (code bug): `SmallInteger(5) / SmallInteger(0)` is routed into the
arbitrary-precision fallback (the checked native division returns `None` on a
zero divisor), where the external bignum division aborts; no recoverable
DivisionByZero error is produced by this operator. The operation indeed never
promotes and never yields an arithmetic result. -/
theorem small_div_zero_aborts :
    small_div 5 0 = none ∧ small_rem 5 0 = none ∧
    (∀ r : Integer, small_div 5 0 ≠ some r) := by
  refine ⟨by decide, by decide, fun r hr => ?_⟩
  rw [show small_div 5 0 = none from by decide] at hr
  cases hr

/-- C6 (code bug): the native checked shift left only checks the shift count,
not value overflow, so `1 << 63` wraps to `isize::MIN` and the operation
returns `Integer::Big(-(2^63))` instead of the exact `Integer::Big(2^63)`. -/
theorem small_shl_wraps :
    small_shl 1 63 = Integer.Big (-(2 ^ 63)) ∧
    (63 : Nat) < 2 ^ 32 ∧
    small_shl 1 63 ≠ canonicalInteger ((1 : Int) * 2 ^ 63) := by decide

/-! ## The tagged-word round trip (C5) -/

/-- C5 (code bug): the round trip fails at `v = MIN_VALUE = -(2^59)`: its
magnitude `2^59` collides with the sign flag bit, so the encoded word decodes
to `0`. (The tag constant `2^63` stands for `Term::FLAG_SMALL_INTEGER`; any
tag occupying only the 4 header bits gives the same payload.) -/
theorem as_term_min_value_corrupts :
    from_untagged_term (untag_small (as_term (2 ^ 63) MIN_VALUE)) = 0 ∧
    MIN_VALUE ≠ 0 ∧
    from_untagged_term (untag_small (as_term (2 ^ 63) (MIN_VALUE + 1))) =
      MIN_VALUE + 1 := by decide

/-! ## Bit-level lemmas for the native bitwise operations (C7, C8) -/

theorem bitStep_lt (f : Bool → Bool → Bool) :
    ∀ (k a b : Nat), bitStep f k a b < 2 ^ k := by
  intro k
  induction k with
  | zero => intro a b; simp [bitStep]
  | succ k ih =>
    intro a b
    have h := ih (a / 2) (b / 2)
    have hp : (2 : Nat) ^ (k + 1) = 2 * 2 ^ k := by ring
    simp only [bitStep]
    split <;> omega

theorem bitStep_testBit (f : Bool → Bool → Bool) :
    ∀ (k a b i : Nat),
      (bitStep f k a b).testBit i =
        if i < k then f (a.testBit i) (b.testBit i) else false := by
  intro k
  induction k with
  | zero => intro a b i; simp [bitStep]
  | succ k ih =>
    intro a b i
    simp only [bitStep]
    cases i with
    | zero =>
      rw [if_pos (Nat.succ_pos k), Nat.testBit_zero, Nat.testBit_zero, Nat.testBit_zero]
      cases hf : f (decide (a % 2 = 1)) (decide (b % 2 = 1)) <;>
        simp [hf, Nat.add_mul_mod_self_left, Nat.mul_mod_right]
    | succ i =>
      have hdiv :
          ((if f (decide (a % 2 = 1)) (decide (b % 2 = 1)) then 1 else 0) +
            2 * bitStep f k (a / 2) (b / 2)) / 2 = bitStep f k (a / 2) (b / 2) := by
        split <;> omega
      rw [Nat.testBit_succ, hdiv, ih, Nat.testBit_succ, Nat.testBit_succ]
      by_cases h : i < k
      · rw [if_pos h, if_pos (by omega)]
      · rw [if_neg h, if_neg (by omega)]

theorem bitAnd64_testBit (a b i : Nat) :
    (bitAnd64 a b).testBit i =
      if i < 64 then and (a.testBit i) (b.testBit i) else false :=
  bitStep_testBit and 64 a b i

/-- Dividing the bitwise combination by a power of two combines the divided
operands, provided both operands fit in 64 bits. -/
theorem bitStep64_div_pow (f : Bool → Bool → Bool) (hf : f false false = false)
    (a b : Nat) (ha : a < 2 ^ 64) (hb : b < 2 ^ 64) (k : Nat) :
    bitStep f 64 a b / 2 ^ k = bitStep f 64 (a / 2 ^ k) (b / 2 ^ k) := by
  rw [← Nat.shiftRight_eq_div_pow, ← Nat.shiftRight_eq_div_pow, ← Nat.shiftRight_eq_div_pow]
  apply Nat.eq_of_testBit_eq
  intro i
  rw [Nat.testBit_shiftRight, bitStep_testBit, bitStep_testBit,
      Nat.testBit_shiftRight, Nat.testBit_shiftRight]
  by_cases h1 : k + i < 64
  · rw [if_pos h1, if_pos (by omega)]
  · rw [if_neg h1]
    by_cases h2 : i < 64
    · rw [if_pos h2,
        Nat.testBit_lt_two_pow
          (lt_of_lt_of_le ha (Nat.pow_le_pow_right (by norm_num) (by omega))),
        Nat.testBit_lt_two_pow
          (lt_of_lt_of_le hb (Nat.pow_le_pow_right (by norm_num) (by omega))),
        hf]
    · rw [if_neg h2]

theorem bitAnd64_div_pow (a b : Nat) (ha : a < 2 ^ 64) (hb : b < 2 ^ 64) (k : Nat) :
    bitAnd64 a b / 2 ^ k = bitAnd64 (a / 2 ^ k) (b / 2 ^ k) :=
  bitStep64_div_pow and rfl a b ha hb k

theorem bitOr64_div_pow (a b : Nat) (ha : a < 2 ^ 64) (hb : b < 2 ^ 64) (k : Nat) :
    bitOr64 a b / 2 ^ k = bitOr64 (a / 2 ^ k) (b / 2 ^ k) :=
  bitStep64_div_pow or rfl a b ha hb k

theorem bitXor64_div_pow (a b : Nat) (ha : a < 2 ^ 64) (hb : b < 2 ^ 64) (k : Nat) :
    bitXor64 a b / 2 ^ k = bitXor64 (a / 2 ^ k) (b / 2 ^ k) :=
  bitStep64_div_pow xor rfl a b ha hb k

theorem toBits_lt (x : Int) : toBits x < 2 ^ 64 := by
  unfold toBits
  have h1 : x % (2 ^ 64 : Int) < 2 ^ 64 := Int.emod_lt_of_pos x (by norm_num)
  have h2 : (0 : Int) ≤ x % (2 ^ 64 : Int) := Int.emod_nonneg x (by norm_num)
  omega

/-- The bit pattern of an in-range value has its five reserved-position bits all
clear (non-negative values) or all set (negative values): its top five-bit
digit is `0` or `31`. -/
theorem toBits_hi (a : Int) (ha : inRange a) :
    toBits a / 2 ^ 59 = 0 ∨ toBits a / 2 ^ 59 = 31 := by
  rcases ha with ⟨h1, h2⟩
  rw [MIN_VALUE_eq] at h1
  rw [MAX_VALUE_eq] at h2
  unfold toBits
  omega

/-- A 64-bit pattern whose top five-bit digit is `0` or `31` reads back as an
in-range signed value. -/
theorem ofBits_inRange (R : Nat) (hR : R < 2 ^ 64)
    (h : R / 2 ^ 59 = 0 ∨ R / 2 ^ 59 = 31) : inRange (ofBits R) := by
  unfold ofBits inRange
  rw [MIN_VALUE_eq, MAX_VALUE_eq]
  split <;> omega

theorem iand_inRange (a b : Int) (ha : inRange a) (hb : inRange b) :
    inRange (iand a b) := by
  unfold iand
  refine ofBits_inRange _ (bitStep_lt and 64 _ _) ?_
  rw [bitAnd64_div_pow _ _ (toBits_lt a) (toBits_lt b)]
  rcases toBits_hi a ha with h1 | h1 <;> rcases toBits_hi b hb with h2 | h2 <;>
    rw [h1, h2] <;> decide

theorem ior_inRange (a b : Int) (ha : inRange a) (hb : inRange b) :
    inRange (ior a b) := by
  unfold ior
  refine ofBits_inRange _ (bitStep_lt or 64 _ _) ?_
  rw [bitOr64_div_pow _ _ (toBits_lt a) (toBits_lt b)]
  rcases toBits_hi a ha with h1 | h1 <;> rcases toBits_hi b hb with h2 | h2 <;>
    rw [h1, h2] <;> decide

theorem ixor_inRange (a b : Int) (ha : inRange a) (hb : inRange b) :
    inRange (ixor a b) := by
  unfold ixor
  refine ofBits_inRange _ (bitStep_lt xor 64 _ _) ?_
  rw [bitXor64_div_pow _ _ (toBits_lt a) (toBits_lt b)]
  rcases toBits_hi a ha with h1 | h1 <;> rcases toBits_hi b hb with h2 | h2 <;>
    rw [h1, h2] <;> decide

/-- C7: on two in-range operands the native bitwise AND, OR and XOR results
are themselves in `[MIN_VALUE, MAX_VALUE]`, the range assertion of the unchecked
constructor never fires, and each operator returns `Integer::Small` of the
native result. -/
theorem smallint_bitop_in_range (a b : Int) (ha : inRange a) (hb : inRange b) :
    inRange (iand a b) ∧ inRange (ior a b) ∧ inRange (ixor a b) ∧
    small_and a b = some (Integer.Small (iand a b)) ∧
    small_or a b = some (Integer.Small (ior a b)) ∧
    small_xor a b = some (Integer.Small (ixor a b)) := by
  have h1 : MIN_VALUE ≤ iand a b ∧ iand a b ≤ MAX_VALUE := iand_inRange a b ha hb
  have h2 : MIN_VALUE ≤ ior a b ∧ ior a b ≤ MAX_VALUE := ior_inRange a b ha hb
  have h3 : MIN_VALUE ≤ ixor a b ∧ ixor a b ≤ MAX_VALUE := ixor_inRange a b ha hb
  refine ⟨h1, h2, h3, ?_, ?_, ?_⟩
  · unfold small_and new_unchecked
    rw [if_pos h1]
    rfl
  · unfold small_or new_unchecked
    rw [if_pos h2]
    rfl
  · unfold small_xor new_unchecked
    rw [if_pos h3]
    rfl

/-- Witness for C7 at `a = MIN_VALUE`, `b = 6`. -/
theorem smallint_bitop_in_range_witness :
    inRange MIN_VALUE ∧ inRange 6 ∧
    small_xor MIN_VALUE 6 = some (Integer.Small (ixor MIN_VALUE 6)) := by
  refine ⟨by decide, by decide,
    (smallint_bitop_in_range MIN_VALUE 6 (by decide) (by decide)).2.2.2.2.2⟩

/-! ## Bitwise complement (C8) -/

theorem bitAnd64_zero_right (x : Nat) : bitAnd64 x 0 = 0 := by
  apply Nat.eq_of_testBit_eq
  intro i
  rw [bitAnd64_testBit]
  simp [Nat.zero_testBit]

theorem toBits_MAX : toBits MAX_VALUE = 2 ^ 59 - 1 := by decide

/-- Masking any native value against `MAX_VALUE` lands in `[0, MAX_VALUE]`. -/
theorem iand_MAX_range (y : Int) :
    0 ≤ iand y MAX_VALUE ∧ iand y MAX_VALUE ≤ MAX_VALUE := by
  unfold iand
  rw [toBits_MAX]
  have hRlt : bitAnd64 (toBits y) (2 ^ 59 - 1) < 2 ^ 64 :=
    bitStep_lt and 64 (toBits y) (2 ^ 59 - 1)
  have h0 : (2 ^ 59 - 1) / 2 ^ 59 = 0 := Nat.div_eq_of_lt (by norm_num)
  have hhi : bitAnd64 (toBits y) (2 ^ 59 - 1) / 2 ^ 59 = 0 := by
    rw [bitAnd64_div_pow _ _ (toBits_lt y) (by norm_num), h0]
    exact bitAnd64_zero_right _
  unfold ofBits
  rw [MAX_VALUE_eq]
  split <;> omega

/-- C8: bitwise complement returns the native NOT masked against `MAX_VALUE`
(the magnitude-field all-ones pattern), always as `Integer::Small`; in
particular `!SmallInteger(0) = Integer::Small(MAX_VALUE)`. -/
theorem small_not_masks (x : Int) :
    small_not x = some (Integer.Small (iand (inot x) MAX_VALUE)) ∧
    small_not 0 = some (Integer.Small MAX_VALUE) := by
  constructor
  · have h := iand_MAX_range (inot x)
    have hm : MIN_VALUE < 0 := by decide
    simp only [small_not]
    rw [if_neg (by omega)]
    unfold new_unchecked
    rw [if_pos ⟨by omega, h.2⟩]
    rfl
  · decide

/-! ## Cross-type comparison (C9) -/

/-- C9: comparing a small integer with a `BigInteger` widens losslessly and
delegates to the arbitrary-precision comparison, which is total (`partial_cmp`
is always `Some`), with equality holding exactly when the widened values are
equal and agreeing with the ordering; comparing with a `Float` is the IEEE
double comparison of the `as f64` cast of the small value against the
float value. -/
theorem small_cmp_cross_type (s : Int) (g : BigInteger) (f : F64) :
    small_cmp_big s g = some (compare (small_into_big s) g.value) ∧
    (small_cmp_big s g).isSome = true ∧
    (small_eq_big s g = true ↔ small_into_big s = g.value) ∧
    (small_eq_big s g = true ↔ small_cmp_big s g = some Ordering.eq) ∧
    small_eq_float s f = F64.beq (isize_as_f64 s) f ∧
    small_cmp_float s f = F64.cmp (isize_as_f64 s) f := by
  refine ⟨rfl, rfl, ?_, ?_, rfl, rfl⟩
  · simp [small_eq_big, small_into_big, eq_comm]
  · simp only [small_eq_big, small_cmp_big, decide_eq_true_eq, Option.some.injEq]
    rw [compare_eq_iff_eq]
    exact ⟨fun h => h.symm, fun h => h.symm⟩

end Lumen
